import Mathlib

/-!
Verification of the PDF summarizer pipeline (`summarizer_pipeline.py`,
`summarizers.py`).  Strings are modelled as `List Char`; Python's text
primitives (`str.split`, `str.splitlines`, `str.strip`, `str.lower`, regex
substitution of character runs) are embedded as executable Lean functions,
and the pipeline's pure core (cleaning, deduplication, chunking, reassembly,
error substitution, cache decision, cancellation loop) is translated on top
of them.  External effects (the HTTP inference call, OCR, the file system)
are supplied as explicit parameters/oracles to the functions that perform
them, so every definition stays executable.
-/

/-- A character inside the ASCII range `\x00`–`\x7F`; the complement of the
cleaning regex `[^\x00-\x7F]` of `summarizer_pipeline.py` line 24. -/
def isAsciiChar (c : Char) : Bool := c.toNat ≤ 0x7F

/-- Python whitespace, as recognised by `str.isspace`, `str.strip` and the
regex class `\s`: ASCII `\t`–`\r`, `\x1c`–`\x1f`, space, next-line `\x85`,
and the Unicode space characters. -/
def isPySpace (c : Char) : Bool :=
  (0x09 ≤ c.toNat && c.toNat ≤ 0x0d) || (0x1c ≤ c.toNat && c.toNat ≤ 0x1f) ||
  c.toNat == 0x20 || c.toNat == 0x85 || c.toNat == 0xa0 ||
  c.toNat == 0x1680 || (0x2000 ≤ c.toNat && c.toNat ≤ 0x200a) ||
  c.toNat == 0x2028 || c.toNat == 0x2029 || c.toNat == 0x202f ||
  c.toNat == 0x205f || c.toNat == 0x3000

/-- Python `str.strip()` with no arguments: remove leading and trailing
whitespace. -/
def pyStrip (l : List Char) : List Char :=
  ((l.dropWhile isPySpace).reverse.dropWhile isPySpace).reverse

/-- `re.sub(pattern, " ", s)` for a pattern matching maximal nonempty runs of
characters satisfying `p`: each maximal run is replaced by a single space.
`inRun` records whether the previous character belonged to a run whose
replacement space has already been emitted. -/
def subRunsAux (p : Char → Bool) : Bool → List Char → List Char
  | _, [] => []
  | inRun, c :: cs =>
    if p c then
      if inRun then subRunsAux p true cs
      else ' ' :: subRunsAux p true cs
    else c :: subRunsAux p false cs

/-- Substitution of maximal runs matching `p` by a single space; used for the
regexes `[^\x00-\x7F]+` and `\s+` of `summarizer_pipeline.py` lines 24–25. -/
def subRuns (p : Char → Bool) (l : List Char) : List Char := subRunsAux p false l

theorem subRunsAux_nil (p : Char → Bool) (b : Bool) : subRunsAux p b [] = [] := rfl

theorem subRunsAux_pos_true {p : Char → Bool} {c : Char} (h : p c = true) (cs : List Char) :
    subRunsAux p true (c :: cs) = subRunsAux p true cs := by
  simp [subRunsAux, h]

theorem subRunsAux_pos_false {p : Char → Bool} {c : Char} (h : p c = true) (cs : List Char) :
    subRunsAux p false (c :: cs) = ' ' :: subRunsAux p true cs := by
  simp [subRunsAux, h]

theorem subRunsAux_neg {p : Char → Bool} {c : Char} {b : Bool} (h : p c = false) (cs : List Char) :
    subRunsAux p b (c :: cs) = c :: subRunsAux p false cs := by
  simp [subRunsAux, h]

/-- `clean_text` (`summarizer_pipeline.py` lines 30–31):
`multi_space_re.sub(" ", non_ascii_re.sub(" ", text)).strip()`. -/
def clean_text (text : List Char) : List Char :=
  pyStrip (subRuns isPySpace (subRuns (fun c => !(isAsciiChar c)) text))

theorem mem_subRunsAux {p : Char → Bool} {c : Char} :
    ∀ {l : List Char} {b : Bool}, c ∈ subRunsAux p b l → c = ' ' ∨ (c ∈ l ∧ p c = false) := by
  intro l
  induction l with
  | nil => intro b h; simp [subRunsAux_nil] at h
  | cons c' cs ih =>
    intro b h
    cases hpc : p c' with
    | true =>
      cases b with
      | true =>
        rw [subRunsAux_pos_true hpc] at h
        rcases ih h with h | ⟨hm, hp⟩
        · exact Or.inl h
        · exact Or.inr ⟨List.mem_cons_of_mem _ hm, hp⟩
      | false =>
        rw [subRunsAux_pos_false hpc] at h
        rcases List.mem_cons.mp h with h | h
        · exact Or.inl h
        · rcases ih h with h | ⟨hm, hp⟩
          · exact Or.inl h
          · exact Or.inr ⟨List.mem_cons_of_mem _ hm, hp⟩
    | false =>
      rw [subRunsAux_neg hpc] at h
      rcases List.mem_cons.mp h with h | h
      · subst h; exact Or.inr ⟨List.mem_cons_self _ _, hpc⟩
      · rcases ih h with h | ⟨hm, hp⟩
        · exact Or.inl h
        · exact Or.inr ⟨List.mem_cons_of_mem _ hm, hp⟩

theorem mem_subRuns {p : Char → Bool} {c : Char} {l : List Char}
    (h : c ∈ subRuns p l) : c = ' ' ∨ (c ∈ l ∧ p c = false) :=
  mem_subRunsAux h

theorem head?_subRunsAux_true {p : Char → Bool} :
    ∀ {l : List Char} {y : Char}, (subRunsAux p true l).head? = some y → p y = false := by
  intro l
  induction l with
  | nil => intro y h; simp [subRunsAux_nil] at h
  | cons c cs ih =>
    intro y h
    cases hpc : p c with
    | true => rw [subRunsAux_pos_true hpc] at h; exact ih h
    | false =>
      rw [subRunsAux_neg hpc] at h
      simp at h
      exact h ▸ hpc

theorem chain'_subRunsAux (p : Char → Bool) :
    ∀ (l : List Char) (b : Bool),
      List.Chain' (fun a c => (p a && p c) = false) (subRunsAux p b l) := by
  intro l
  induction l with
  | nil => intro b; simp [subRunsAux_nil]
  | cons c cs ih =>
    intro b
    cases hpc : p c with
    | true =>
      cases b with
      | true => rw [subRunsAux_pos_true hpc]; exact ih true
      | false =>
        rw [subRunsAux_pos_false hpc]
        refine List.chain'_cons'.mpr ⟨?_, ih true⟩
        intro y hy
        simp [head?_subRunsAux_true hy]
    | false =>
      rw [subRunsAux_neg hpc]
      refine List.chain'_cons'.mpr ⟨?_, ih false⟩
      intro y _
      simp [hpc]

theorem chain'_subRuns (p : Char → Bool) (l : List Char) :
    List.Chain' (fun a b => (p a && p b) = false) (subRuns p l) :=
  chain'_subRunsAux p l false

theorem pyStrip_prefix_dropWhile (l : List Char) :
    pyStrip l <+: l.dropWhile isPySpace := by
  have h := List.reverse_prefix.mpr
    (List.dropWhile_suffix (l := (l.dropWhile isPySpace).reverse) isPySpace)
  simpa [pyStrip] using h

theorem pyStrip_sublist (l : List Char) : List.Sublist (pyStrip l) l :=
  ((pyStrip_prefix_dropWhile l).sublist).trans (List.dropWhile_sublist isPySpace)

theorem pyStrip_headD {l : List Char} {d : Char} (hd : isPySpace d = false) :
    isPySpace ((pyStrip l).headD d) = false := by
  cases hs : pyStrip l with
  | nil => simpa using hd
  | cons a as =>
    have hpre := pyStrip_prefix_dropWhile l
    rw [hs] at hpre
    obtain ⟨t, ht⟩ := hpre
    have hhead : (l.dropWhile isPySpace).head? = some a := by
      rw [← ht]; simp
    have := List.head?_dropWhile_not isPySpace l
    rw [hhead] at this
    simpa using this

theorem pyStrip_getLastD {l : List Char} {d : Char} (hd : isPySpace d = false) :
    isPySpace ((pyStrip l).getLastD d) = false := by
  unfold pyStrip
  rw [List.getLastD_eq_getLast?, List.getLast?_reverse]
  cases hh : ((l.dropWhile isPySpace).reverse.dropWhile isPySpace).head? with
  | none => simpa using hd
  | some a =>
    have := List.head?_dropWhile_not isPySpace (l.dropWhile isPySpace).reverse
    rw [hh] at this
    simpa using this

theorem chain'_pyStrip {R : Char → Char → Prop} {l : List Char}
    (h : List.Chain' R l) : List.Chain' R (pyStrip l) :=
  List.Chain'.prefix
    (List.Chain'.suffix h (List.dropWhile_suffix isPySpace))
    (pyStrip_prefix_dropWhile l)

/-- C8: for every text `t`, `clean_text t` contains only ASCII characters,
contains no two consecutive whitespace characters (hence no whitespace run of
length ≥ 2), and has neither leading nor trailing whitespace (its first and
last characters, read with a non-whitespace default, are not whitespace). -/
theorem clean_text_normalized (t : List Char) :
    (clean_text t).all isAsciiChar = true ∧
    List.Chain' (fun a b => (isPySpace a && isPySpace b) = false) (clean_text t) ∧
    isPySpace ((clean_text t).headD 'A') = false ∧
    isPySpace ((clean_text t).getLastD 'A') = false := by
  refine ⟨?_, ?_, ?_, ?_⟩
  · rw [List.all_eq_true]
    intro c hc
    simp only [clean_text] at hc
    have hc1 := (pyStrip_sublist _).subset hc
    rcases mem_subRuns hc1 with h | ⟨h2, _⟩
    · subst h; decide
    · rcases mem_subRuns h2 with h | ⟨_, hp⟩
      · subst h; decide
      · simpa using hp
  · exact chain'_pyStrip (chain'_subRuns _ _)
  · exact pyStrip_headD (by decide)
  · exact pyStrip_getLastD (by decide)

/-- Python `str.lower` on its ASCII action: `A`–`Z` map to `a`–`z`; all other
characters are kept unchanged. -/
def pyLowerChar (c : Char) : Char :=
  if 'A' ≤ c ∧ c ≤ 'Z' then Char.ofNat (c.toNat + 32) else c

/-- `hash_line` (`summarizer_pipeline.py` lines 34–35):
`hashlib.md5(line.lower().strip().encode()).hexdigest()`.  The MD5 digest is
modelled as an injective fingerprint: the canonical form
`line.lower().strip()` itself stands for its digest, so fingerprint equality
is equality of canonical forms. -/
def hash_line (line : List Char) : List Char :=
  pyStrip (line.map pyLowerChar)

/-- The line-break characters recognised by Python `str.splitlines`. -/
def isLineBreak (c : Char) : Bool :=
  c.toNat == 0x0a || c.toNat == 0x0d || c.toNat == 0x0b || c.toNat == 0x0c ||
  c.toNat == 0x1c || c.toNat == 0x1d || c.toNat == 0x1e || c.toNat == 0x85 ||
  c.toNat == 0x2028 || c.toNat == 0x2029

/-- Python `str.splitlines()`: split at line-break characters, with `\r\n`
counting as a single break and no extra empty line after a trailing break. -/
def pySplitlines : List Char → List (List Char)
  | [] => []
  | '\r' :: '\n' :: cs => [] :: pySplitlines cs
  | c :: cs =>
    if isLineBreak c then [] :: pySplitlines cs
    else
      match pySplitlines cs with
      | [] => [[c]]
      | l :: ls => (c :: l) :: ls

/-- `"\n".join(lines)`. -/
def joinNL (ls : List (List Char)) : List Char := List.intercalate ['\n'] ls

/-- `deduplicate_ocr` (`summarizer_pipeline.py` lines 91–95): keep only the
OCR lines whose line fingerprint does not occur among the fingerprints of the
non-blank lines of the embedded PDF text, and join them with newlines. -/
def deduplicate_ocr (text_pdf text_ocr : List Char) : List Char :=
  let pdf_hashes :=
    ((pySplitlines text_pdf).filter (fun line => !(pyStrip line).isEmpty)).map hash_line
  joinNL ((pySplitlines text_ocr).filter
    (fun line => !(pdf_hashes.contains (hash_line line))))

/-- The deduplication contract in the words of §4.4 of the spec: build the
set of line fingerprints of the non-blank lines of `pdfText`; keep, in
original OCR order, exactly the lines of `ocrText` whose fingerprint is
absent from that set; join the kept lines with newlines. -/
def dedupSpec (pdfText ocrText : List Char) : List Char :=
  let fingerprints : Finset (List Char) :=
    (((pySplitlines pdfText).filter (fun line => !(pyStrip line).isEmpty)).map hash_line).toFinset
  joinNL ((pySplitlines ocrText).filter
    (fun line => decide (hash_line line ∉ fingerprints)))

/-- C7: for all `pdfText` and `ocrText`, `deduplicate_ocr` is the
newline-join of exactly those lines of `ocrText`, in their original order,
whose fingerprint is absent from the set of fingerprints of the non-blank
lines of `pdfText`; and the fingerprint is case- and trim-insensitive:
`hash_line "Hello" = hash_line "hello "`. -/
theorem filter_contains_eq_filter_finset (hs ls : List (List Char)) (f : List Char → List Char) :
    ls.filter (fun line => !(hs.contains (f line))) =
      ls.filter (fun line => decide (f line ∉ hs.toFinset)) := by
  apply List.filter_congr
  intro line _
  simp

/-- C7: for all `pdfText` and `ocrText`, `deduplicate_ocr` is the
newline-join of exactly those lines of `ocrText`, in their original order,
whose fingerprint is absent from the set of fingerprints of the non-blank
lines of `pdfText`; and the fingerprint is case- and trim-insensitive:
`hash_line "Hello" = hash_line "hello "`. -/
theorem deduplicate_ocr_spec (pdfText ocrText : List Char) :
    deduplicate_ocr pdfText ocrText = dedupSpec pdfText ocrText ∧
    hash_line "Hello".toList = hash_line "hello ".toList := by
  constructor
  · exact congrArg joinNL (filter_contains_eq_filter_finset _ _ _)
  · decide

/-- Helper for Python `str.split()`: `acc` holds, reversed, the characters of
the word currently being read. -/
def pySplitAux : List Char → List Char → List (List Char)
  | acc, [] => if acc.isEmpty then [] else [acc.reverse]
  | acc, c :: cs =>
    if isPySpace c then
      if acc.isEmpty then pySplitAux [] cs
      else acc.reverse :: pySplitAux [] cs
    else pySplitAux (c :: acc) cs

/-- Python `str.split()` with no arguments: the maximal runs of
non-whitespace characters, in order. -/
def pySplit (l : List Char) : List (List Char) := pySplitAux [] l

/-- `len(s.split())`: the number of whitespace-separated words of `s`. -/
def wordCount (s : List Char) : ℕ := (pySplit s).length

/-- `sep.join(ws)`. -/
def joinSep (sep : List Char) : List (List Char) → List Char
  | [] => []
  | [w] => w
  | w :: ws => w ++ sep ++ joinSep sep ws

/-- `' '.join(ws)`. -/
def joinSpace (ws : List (List Char)) : List Char := joinSep [' '] ws

/-- The scanning loop of `split_text_smart` (`summarizer_pipeline.py` lines
105–109): words are appended to `current_chunk`, and whenever its length
reaches `max_words` the joined chunk is emitted and the accumulator reset.
Returns the emitted chunks and the final partial word list. -/
def sts_loop (max_words : ℕ) : List (List Char) → List (List Char) → List (List Char) × List (List Char)
  | current_chunk, [] => ([], current_chunk)
  | current_chunk, w :: ws =>
    let cur := current_chunk ++ [w]
    if max_words ≤ cur.length then
      let r := sts_loop max_words [] ws
      (joinSpace cur :: r.1, r.2)
    else sts_loop max_words cur ws

/-- `chunks[-1] += ' ' + ' '.join(current_chunk)` (line 113): append a space
and `extra` onto the last chunk. -/
def appendToLast (extra : List Char) : List (List Char) → List (List Char)
  | [] => []
  | [c] => [c ++ ' ' :: extra]
  | c :: cs => c :: appendToLast extra cs

/-- `split_text_smart` (`summarizer_pipeline.py` lines 100–116). -/
def split_text_smart (text : List Char) (max_words min_words : ℕ) : List (List Char) :=
  let words := pySplit text
  let r := sts_loop max_words [] words
  if r.2.isEmpty then r.1
  else if r.2.length < min_words ∧ r.1 ≠ [] then
    appendToLast (joinSpace r.2) r.1
  else r.1 ++ [joinSpace r.2]

/-- Word-level image of `sts_loop`: identical control flow, but emitted chunks
are kept as lists of words rather than joined strings. -/
def chunkLoopW (max_words : ℕ) : List (List Char) → List (List Char) → List (List (List Char)) × List (List Char)
  | current, [] => ([], current)
  | current, w :: ws =>
    let cur := current ++ [w]
    if max_words ≤ cur.length then
      let r := chunkLoopW max_words [] ws
      (cur :: r.1, r.2)
    else chunkLoopW max_words cur ws

/-- Word-level image of `appendToLast`. -/
def appendToLastW (extra : List (List Char)) : List (List (List Char)) → List (List (List Char))
  | [] => []
  | [c] => [c ++ extra]
  | c :: cs => c :: appendToLastW extra cs

/-- Word-level image of `split_text_smart` on an already-split word list. -/
def chunkWordsW (max_words min_words : ℕ) (words : List (List Char)) : List (List (List Char)) :=
  let r := chunkLoopW max_words [] words
  if r.2.isEmpty then r.1
  else if r.2.length < min_words ∧ r.1 ≠ [] then appendToLastW r.2 r.1
  else r.1 ++ [r.2]

theorem joinSep_append (sep : List Char) :
    ∀ (ws vs : List (List Char)), ws ≠ [] → vs ≠ [] →
      joinSep sep (ws ++ vs) = joinSep sep ws ++ sep ++ joinSep sep vs := by
  intro ws
  induction ws with
  | nil => intro vs h _; exact absurd rfl h
  | cons w ws ih =>
    intro vs _ hvs
    cases ws with
    | nil =>
      cases vs with
      | nil => exact absurd rfl hvs
      | cons v vs' => simp [joinSep]
    | cons w' ws' =>
      have h1 := ih vs (by simp) hvs
      simp only [List.cons_append, joinSep, List.append_eq] at h1 ⊢
      rw [h1]
      simp [List.append_assoc]

/-- A word as produced by `str.split()`: nonempty and free of whitespace. -/
def goodWord (w : List Char) : Prop := w ≠ [] ∧ ∀ c ∈ w, isPySpace c = false

theorem pySplitAux_append_word :
    ∀ (w acc t : List Char), (∀ c ∈ w, isPySpace c = false) →
      pySplitAux acc (w ++ t) = pySplitAux (w.reverse ++ acc) t := by
  intro w
  induction w with
  | nil => intro acc t _; simp
  | cons c w' ih =>
    intro acc t hw
    have hc : isPySpace c = false := hw c (List.mem_cons_self _ _)
    have step : pySplitAux acc ((c :: w') ++ t) = pySplitAux (c :: acc) (w' ++ t) := by
      simp [pySplitAux, hc]
    rw [step, ih (c :: acc) t (fun x hx => hw x (List.mem_cons_of_mem _ hx))]
    simp

theorem pySplit_joinSpace :
    ∀ (ws : List (List Char)), (∀ w ∈ ws, goodWord w) → pySplit (joinSpace ws) = ws := by
  intro ws
  induction ws with
  | nil => intro _; rfl
  | cons w ws ih =>
    intro hws
    have hw : goodWord w := hws w (List.mem_cons_self _ _)
    cases ws with
    | nil =>
      show pySplitAux [] (joinSep [' '] [w]) = [w]
      have h1 : joinSep [' '] [w] = w ++ [] := by simp [joinSep]
      rw [h1, pySplitAux_append_word w [] [] hw.2]
      simp [pySplitAux, hw.1]
    | cons v vs =>
      have h1 : joinSpace (w :: v :: vs) = w ++ (' ' :: joinSpace (v :: vs)) := by
        simp [joinSpace, joinSep]
      show pySplitAux [] (joinSpace (w :: v :: vs)) = w :: v :: vs
      rw [h1, pySplitAux_append_word w [] _ hw.2]
      have h2 : pySplitAux (w.reverse ++ []) (' ' :: joinSpace (v :: vs)) =
          w.reverse.reverse :: pySplitAux [] (joinSpace (v :: vs)) := by
        simp [pySplitAux, show isPySpace ' ' = true from rfl, List.isEmpty_iff, hw.1]
      rw [h2]
      simp only [List.reverse_reverse]
      show w :: pySplit (joinSpace (v :: vs)) = w :: v :: vs
      rw [ih (fun x hx => hws x (List.mem_cons_of_mem _ hx))]

theorem goodWord_pySplitAux :
    ∀ (l acc : List Char), (∀ c ∈ acc, isPySpace c = false) →
      ∀ w ∈ pySplitAux acc l, goodWord w := by
  intro l
  induction l with
  | nil =>
    intro acc hacc w hw
    by_cases h : acc.isEmpty
    · simp [pySplitAux, h] at hw
    · simp only [pySplitAux, h, Bool.false_eq_true, if_false, List.mem_singleton] at hw
      subst hw
      refine ⟨?_, fun c hc => hacc c (List.mem_reverse.mp hc)⟩
      simp [List.isEmpty_iff] at h
      simpa using h
  | cons c cs ih =>
    intro acc hacc w hw
    cases hc : isPySpace c with
    | false =>
      rw [show pySplitAux acc (c :: cs) = pySplitAux (c :: acc) cs by
        simp [pySplitAux, hc]] at hw
      refine ih (c :: acc) ?_ w hw
      intro x hx
      rcases List.mem_cons.mp hx with h | h
      · exact h ▸ hc
      · exact hacc x h
    | true =>
      by_cases hae : acc.isEmpty
      · rw [show pySplitAux acc (c :: cs) = pySplitAux [] cs by
          simp [pySplitAux, hc, hae]] at hw
        exact ih [] (by simp) w hw
      · rw [show pySplitAux acc (c :: cs) = acc.reverse :: pySplitAux [] cs by
          simp [pySplitAux, hc, hae]] at hw
        rcases List.mem_cons.mp hw with h | h
        · subst h
          refine ⟨?_, fun x hx => hacc x (List.mem_reverse.mp hx)⟩
          simp [List.isEmpty_iff] at hae
          simpa using hae
        · exact ih [] (by simp) w h

theorem goodWord_pySplit {l : List Char} : ∀ w ∈ pySplit l, goodWord w :=
  goodWord_pySplitAux l [] (by simp)

theorem sts_loop_eq_chunkLoopW (mw : ℕ) :
    ∀ (ws current : List (List Char)),
      sts_loop mw current ws =
        ((chunkLoopW mw current ws).1.map joinSpace, (chunkLoopW mw current ws).2) := by
  intro ws
  induction ws with
  | nil => intro current; rfl
  | cons w ws ih =>
    intro current
    by_cases h : mw ≤ current.length + 1
    · simp [sts_loop, chunkLoopW, h, ih]
    · simp [sts_loop, chunkLoopW, h, ih]

theorem chunkLoopW_chunks_ne_nil (mw : ℕ) :
    ∀ (ws current : List (List Char)), ∀ c ∈ (chunkLoopW mw current ws).1, c ≠ [] := by
  intro ws
  induction ws with
  | nil => intro current c hc; simp [chunkLoopW] at hc
  | cons w ws ih =>
    intro current c hc
    by_cases h : mw ≤ (current ++ [w]).length
    · simp only [chunkLoopW, h, if_pos] at hc
      rcases List.mem_cons.mp hc with h1 | h1
      · subst h1; simp
      · exact ih [] c h1
    · simp only [chunkLoopW, h, if_neg, not_false_iff] at hc
      exact ih (current ++ [w]) c hc

theorem chunkLoopW_sum (mw : ℕ) :
    ∀ (ws current : List (List Char)),
      (((chunkLoopW mw current ws).1.map List.length).sum + (chunkLoopW mw current ws).2.length)
        = current.length + ws.length := by
  intro ws
  induction ws with
  | nil => intro current; simp [chunkLoopW]
  | cons w ws ih =>
    intro current
    by_cases h : mw ≤ (current ++ [w]).length
    · simp only [chunkLoopW, h, if_pos, List.map_cons, List.sum_cons]
      have := ih []
      simp only [List.length_nil] at this
      simp [this]
      omega
    · simp only [chunkLoopW, h, if_neg, not_false_iff]
      have := ih (current ++ [w])
      simp only [List.length_append, List.length_cons, List.length_nil] at this ⊢
      omega

theorem chunkLoopW_mem (mw : ℕ) :
    ∀ (ws current : List (List Char)),
      (∀ c ∈ (chunkLoopW mw current ws).1, ∀ w ∈ c, w ∈ current ∨ w ∈ ws) ∧
      (∀ w ∈ (chunkLoopW mw current ws).2, w ∈ current ∨ w ∈ ws) := by
  intro ws
  induction ws with
  | nil =>
    intro current
    constructor
    · intro c hc; simp [chunkLoopW] at hc
    · intro w hw
      simp only [chunkLoopW] at hw
      exact Or.inl hw
  | cons w ws ih =>
    intro current
    by_cases h : mw ≤ (current ++ [w]).length
    · simp only [chunkLoopW, h, if_pos]
      constructor
      · intro c hc x hx
        rcases List.mem_cons.mp hc with h1 | h1
        · subst h1
          rcases List.mem_append.mp hx with h2 | h2
          · exact Or.inl h2
          · simp at h2; subst h2; exact Or.inr (List.mem_cons_self _ _)
        · rcases (ih []).1 c h1 x hx with h2 | h2
          · simp at h2
          · exact Or.inr (List.mem_cons_of_mem _ h2)
      · intro x hx
        rcases (ih []).2 x hx with h2 | h2
        · simp at h2
        · exact Or.inr (List.mem_cons_of_mem _ h2)
    · simp only [chunkLoopW, h, if_neg, not_false_iff]
      constructor
      · intro c hc x hx
        rcases (ih (current ++ [w])).1 c hc x hx with h2 | h2
        · rcases List.mem_append.mp h2 with h3 | h3
          · exact Or.inl h3
          · simp at h3; subst h3; exact Or.inr (List.mem_cons_self _ _)
        · exact Or.inr (List.mem_cons_of_mem _ h2)
      · intro x hx
        rcases (ih (current ++ [w])).2 x hx with h2 | h2
        · rcases List.mem_append.mp h2 with h3 | h3
          · exact Or.inl h3
          · simp at h3; subst h3; exact Or.inr (List.mem_cons_self _ _)
        · exact Or.inr (List.mem_cons_of_mem _ h2)

theorem chunkLoopW_bound (mw : ℕ) (hmw : 1 ≤ mw) :
    ∀ (ws current : List (List Char)), current.length < mw →
      (∀ c ∈ (chunkLoopW mw current ws).1, c.length = mw) ∧
      (chunkLoopW mw current ws).2.length < mw := by
  intro ws
  induction ws with
  | nil =>
    intro current hcur
    exact ⟨fun c hc => by simp [chunkLoopW] at hc, by simpa [chunkLoopW] using hcur⟩
  | cons w ws ih =>
    intro current hcur
    by_cases h : mw ≤ (current ++ [w]).length
    · have heq : (current ++ [w]).length = mw := by
        simp only [List.length_append, List.length_cons, List.length_nil] at h ⊢
        omega
      simp only [chunkLoopW, h, if_pos]
      refine ⟨?_, (ih [] (by simpa using hmw)).2⟩
      intro c hc
      rcases List.mem_cons.mp hc with h1 | h1
      · subst h1; exact heq
      · exact (ih [] (by simpa using hmw)).1 c h1
    · have hlt : (current ++ [w]).length < mw := by omega
      simp only [chunkLoopW, h, if_neg, not_false_iff]
      exact ih (current ++ [w]) hlt

theorem appendToLastW_eq :
    ∀ (cs : List (List (List Char))) (extra : List (List Char)) (h : cs ≠ []),
      appendToLastW extra cs = cs.dropLast ++ [cs.getLast h ++ extra] := by
  intro cs
  induction cs with
  | nil => intro extra h; exact absurd rfl h
  | cons c cs ih =>
    intro extra _
    cases cs with
    | nil => simp [appendToLastW]
    | cons c' cs' =>
      simp only [appendToLastW]
      rw [ih extra (by simp)]
      simp [List.getLast_cons]

theorem appendToLast_eq :
    ∀ (cs : List (List Char)) (extra : List Char) (h : cs ≠ []),
      appendToLast extra cs = cs.dropLast ++ [cs.getLast h ++ ' ' :: extra] := by
  intro cs
  induction cs with
  | nil => intro extra h; exact absurd rfl h
  | cons c cs ih =>
    intro extra _
    cases cs with
    | nil => simp [appendToLast]
    | cons c' cs' =>
      simp only [appendToLast]
      rw [ih extra (by simp)]
      simp [List.getLast_cons]

theorem appendToLast_map_joinSpace
    (cs : List (List (List Char))) (extra : List (List Char))
    (hcs : ∀ c ∈ cs, c ≠ []) (hex : extra ≠ []) (hne : cs ≠ []) :
    appendToLast (joinSpace extra) (cs.map joinSpace) = (appendToLastW extra cs).map joinSpace := by
  induction cs with
  | nil => exact absurd rfl hne
  | cons c cs ih =>
    cases cs with
    | nil =>
      have hc : c ≠ [] := hcs c (List.mem_cons_self _ _)
      simp only [List.map_cons, List.map_nil, appendToLast, appendToLastW]
      have := joinSep_append [' '] c extra hc hex
      simp only [joinSpace]
      rw [this]
      simp
    | cons c' cs' =>
      simp only [List.map_cons, appendToLast, appendToLastW, List.map_cons]
      have := ih (fun x hx => hcs x (List.mem_cons_of_mem _ hx)) (by simp)
      simp only [List.map_cons] at this
      rw [this]

theorem mapJoin_if_bridge (nw : ℕ) (cs : List (List (List Char))) (cur : List (List Char))
    (hcs : ∀ c ∈ cs, c ≠ []) :
    (if cur.isEmpty then cs.map joinSpace
     else if cur.length < nw ∧ cs.map joinSpace ≠ [] then
       appendToLast (joinSpace cur) (cs.map joinSpace)
     else cs.map joinSpace ++ [joinSpace cur]) =
    (if cur.isEmpty then cs
     else if cur.length < nw ∧ cs ≠ [] then appendToLastW cur cs
     else cs ++ [cur]).map joinSpace := by
  by_cases h1 : cur.isEmpty
  · simp [h1]
  · have hcur : cur ≠ [] := by simpa [List.isEmpty_iff] using h1
    by_cases h2 : cur.length < nw ∧ cs ≠ []
    · have h2' : cur.length < nw ∧ cs.map joinSpace ≠ [] := ⟨h2.1, by simpa using h2.2⟩
      rw [if_neg h1, if_neg h1, if_pos h2', if_pos h2]
      exact appendToLast_map_joinSpace cs cur hcs hcur h2.2
    · have h2' : ¬(cur.length < nw ∧ cs.map joinSpace ≠ []) := by
        intro hx
        exact h2 ⟨hx.1, fun hc => hx.2 (by simp [hc])⟩
      rw [if_neg h1, if_neg h1, if_neg h2', if_neg h2]
      simp

theorem split_text_smart_eq_chunkWordsW (text : List Char) (mw nw : ℕ) :
    split_text_smart text mw nw = (chunkWordsW mw nw (pySplit text)).map joinSpace := by
  show (if (sts_loop mw [] (pySplit text)).2.isEmpty then (sts_loop mw [] (pySplit text)).1
    else if (sts_loop mw [] (pySplit text)).2.length < nw ∧ (sts_loop mw [] (pySplit text)).1 ≠ [] then
      appendToLast (joinSpace (sts_loop mw [] (pySplit text)).2) (sts_loop mw [] (pySplit text)).1
    else (sts_loop mw [] (pySplit text)).1 ++ [joinSpace (sts_loop mw [] (pySplit text)).2]) = _
  rw [sts_loop_eq_chunkLoopW]
  exact mapJoin_if_bridge nw _ _ (chunkLoopW_chunks_ne_nil mw (pySplit text) [])

theorem chunkWordsW_def (mw nw : ℕ) (ws : List (List Char)) :
    chunkWordsW mw nw ws =
      (if (chunkLoopW mw [] ws).2.isEmpty then (chunkLoopW mw [] ws).1
       else if (chunkLoopW mw [] ws).2.length < nw ∧ (chunkLoopW mw [] ws).1 ≠ [] then
         appendToLastW (chunkLoopW mw [] ws).2 (chunkLoopW mw [] ws).1
       else (chunkLoopW mw [] ws).1 ++ [(chunkLoopW mw [] ws).2]) := rfl

theorem mem_appendToLastW {w : List Char} :
    ∀ (cs : List (List (List Char))) (extra : List (List Char)),
      ∀ c ∈ appendToLastW extra cs, w ∈ c → (∃ c' ∈ cs, w ∈ c') ∨ w ∈ extra := by
  intro cs
  induction cs with
  | nil => intro extra c hc; simp [appendToLastW] at hc
  | cons c0 cs ih =>
    intro extra c hc hw
    cases cs with
    | nil =>
      simp only [appendToLastW, List.mem_singleton] at hc
      subst hc
      rcases List.mem_append.mp hw with h | h
      · exact Or.inl ⟨c0, List.mem_cons_self _ _, h⟩
      · exact Or.inr h
    | cons c1 cs' =>
      simp only [appendToLastW, List.mem_cons] at hc
      rcases hc with h | h
      · subst h; exact Or.inl ⟨c, List.mem_cons_self _ _, hw⟩
      · rcases ih extra c h hw with ⟨c', hc', hw'⟩ | h'
        · exact Or.inl ⟨c', List.mem_cons_of_mem _ hc', hw'⟩
        · exact Or.inr h'

theorem chunkWordsW_mem (mw nw : ℕ) (ws : List (List Char)) :
    ∀ chunk ∈ chunkWordsW mw nw ws, ∀ w ∈ chunk, w ∈ ws := by
  intro chunk hc w hw
  have hmem := chunkLoopW_mem mw ws []
  have hmem1 : ∀ c ∈ (chunkLoopW mw [] ws).1, ∀ x ∈ c, x ∈ ws := by
    intro c hc' x hx
    rcases hmem.1 c hc' x hx with h | h
    · simp at h
    · exact h
  have hmem2 : ∀ x ∈ (chunkLoopW mw [] ws).2, x ∈ ws := by
    intro x hx
    rcases hmem.2 x hx with h | h
    · simp at h
    · exact h
  rw [chunkWordsW_def] at hc
  by_cases h1 : (chunkLoopW mw [] ws).2.isEmpty
  · rw [if_pos h1] at hc
    exact hmem1 chunk hc w hw
  · rw [if_neg h1] at hc
    by_cases h2 : (chunkLoopW mw [] ws).2.length < nw ∧ (chunkLoopW mw [] ws).1 ≠ []
    · rw [if_pos h2] at hc
      rcases mem_appendToLastW _ _ chunk hc hw with ⟨c', hc', hw'⟩ | h'
      · exact hmem1 c' hc' w hw'
      · exact hmem2 w h'
    · rw [if_neg h2] at hc
      rcases List.mem_append.mp hc with h | h
      · exact hmem1 chunk h w hw
      · simp at h; subst h; exact hmem2 w hw

theorem appendToLastW_sum (extra : List (List Char)) :
    ∀ (cs : List (List (List Char))), cs ≠ [] →
      ((appendToLastW extra cs).map List.length).sum = (cs.map List.length).sum + extra.length := by
  intro cs
  induction cs with
  | nil => intro h; exact absurd rfl h
  | cons c cs ih =>
    intro _
    cases cs with
    | nil => simp [appendToLastW]
    | cons c1 cs' =>
      simp only [appendToLastW, List.map_cons, List.sum_cons]
      rw [ih (by simp)]
      simp only [List.map_cons, List.sum_cons]
      omega

theorem chunkWordsW_sum (mw nw : ℕ) (ws : List (List Char)) :
    ((chunkWordsW mw nw ws).map List.length).sum = ws.length := by
  have hsum := chunkLoopW_sum mw ws []
  simp only [List.length_nil, Nat.zero_add] at hsum
  rw [chunkWordsW_def]
  by_cases h1 : (chunkLoopW mw [] ws).2.isEmpty
  · rw [if_pos h1]
    have : (chunkLoopW mw [] ws).2.length = 0 := by
      simp [List.isEmpty_iff] at h1
      simp [h1]
    omega
  · rw [if_neg h1]
    by_cases h2 : (chunkLoopW mw [] ws).2.length < nw ∧ (chunkLoopW mw [] ws).1 ≠ []
    · rw [if_pos h2, appendToLastW_sum _ _ h2.2]
      omega
    · rw [if_neg h2]
      simp only [List.map_append, List.map_cons, List.map_nil, List.sum_append, List.sum_cons,
        List.sum_nil]
      omega

theorem wordCount_joinSpace_chunk {ws : List (List Char)} (hgood : ∀ w ∈ ws, goodWord w)
    {chunk : List (List Char)} (hsub : ∀ w ∈ chunk, w ∈ ws) :
    wordCount (joinSpace chunk) = chunk.length := by
  unfold wordCount
  rw [pySplit_joinSpace chunk (fun w hw => hgood w (hsub w hw))]

/-- C6: for every input text and all parameters, the word counts of the
chunks returned by `split_text_smart` sum to the word count of the input
text, and the empty string yields the empty chunk list. -/
theorem split_text_smart_word_partition (text : List Char) (mw nw : ℕ) :
    ((split_text_smart text mw nw).map wordCount).sum = wordCount text ∧
    split_text_smart [] mw nw = [] := by
  constructor
  · rw [split_text_smart_eq_chunkWordsW, List.map_map]
    have hmap : List.map (wordCount ∘ joinSpace) (chunkWordsW mw nw (pySplit text)) =
        List.map List.length (chunkWordsW mw nw (pySplit text)) := by
      apply List.map_congr_left
      intro chunk hc
      exact wordCount_joinSpace_chunk goodWord_pySplit (chunkWordsW_mem mw nw (pySplit text) chunk hc)
    rw [hmap, chunkWordsW_sum]
    rfl
  · rfl

theorem chunkWordsW_size_bound (mw nw : ℕ) (hmw : 1 ≤ mw) (ws : List (List Char)) :
    (∀ c ∈ (chunkWordsW mw nw ws).dropLast, c.length ≤ mw) ∧
    (∀ c, (chunkWordsW mw nw ws).getLast? = some c → mw < c.length →
      0 < (chunkLoopW mw [] ws).2.length ∧ (chunkLoopW mw [] ws).2.length < nw ∧
      (chunkLoopW mw [] ws).1 ≠ []) := by
  have hb := chunkLoopW_bound mw hmw ws [] (by simpa using hmw)
  rw [chunkWordsW_def]
  by_cases h1 : (chunkLoopW mw [] ws).2.isEmpty
  · rw [if_pos h1]
    constructor
    · intro c hc
      exact le_of_eq (hb.1 c ((List.dropLast_sublist _).subset hc))
    · intro c hcl hlt
      have hmem : c ∈ (chunkLoopW mw [] ws).1 := List.mem_of_getLast?_eq_some hcl
      have := hb.1 c hmem
      omega
  · rw [if_neg h1]
    have h2' : (chunkLoopW mw [] ws).2 ≠ [] := by
      simpa [List.isEmpty_iff] using h1
    by_cases h2 : (chunkLoopW mw [] ws).2.length < nw ∧ (chunkLoopW mw [] ws).1 ≠ []
    · rw [if_pos h2, appendToLastW_eq _ _ h2.2]
      constructor
      · intro c hc
        rw [List.dropLast_concat] at hc
        exact le_of_eq (hb.1 c ((List.dropLast_sublist _).subset hc))
      · intro c _ _
        exact ⟨List.length_pos.mpr h2', h2.1, h2.2⟩
    · rw [if_neg h2]
      constructor
      · intro c hc
        rw [List.dropLast_concat] at hc
        exact le_of_eq (hb.1 c hc)
      · intro c hcl hlt
        rw [List.getLast?_concat] at hcl
        have hc2 : c = (chunkLoopW mw [] ws).2 := by
          injection hcl with h
          exact h.symm
        subst hc2
        omega

/-- C5, amended with `1 ≤ maxWords`: every chunk except the last has word
count at most `maxWords`, and the last chunk can exceed `maxWords` only via
merge-back, i.e. only when the scanning loop left a nonempty trailing
remainder of fewer than `minWords` words and at least one chunk had already
been emitted. -/
theorem split_text_smart_size_bound (text : List Char) (mw nw : ℕ) (hmw : 1 ≤ mw) :
    (∀ chunk ∈ (split_text_smart text mw nw).dropLast, wordCount chunk ≤ mw) ∧
    (∀ chunk, (split_text_smart text mw nw).getLast? = some chunk → mw < wordCount chunk →
      0 < (chunkLoopW mw [] (pySplit text)).2.length ∧
      (chunkLoopW mw [] (pySplit text)).2.length < nw ∧
      (chunkLoopW mw [] (pySplit text)).1 ≠ []) := by
  have hW := chunkWordsW_size_bound mw nw hmw (pySplit text)
  rw [split_text_smart_eq_chunkWordsW]
  constructor
  · intro chunk hc
    rw [← List.map_dropLast] at hc
    rcases List.mem_map.mp hc with ⟨cw, hcw, rfl⟩
    have hcw' : cw ∈ chunkWordsW mw nw (pySplit text) := (List.dropLast_sublist _).subset hcw
    rw [wordCount_joinSpace_chunk goodWord_pySplit
      (chunkWordsW_mem mw nw (pySplit text) cw hcw')]
    exact hW.1 cw hcw
  · intro chunk hcl hlt
    rw [List.getLast?_map] at hcl
    rcases Option.map_eq_some'.mp hcl with ⟨cw, hcw, rfl⟩
    have hcw' : cw ∈ chunkWordsW mw nw (pySplit text) := List.mem_of_getLast?_eq_some hcw
    rw [wordCount_joinSpace_chunk goodWord_pySplit
      (chunkWordsW_mem mw nw (pySplit text) cw hcw')] at hlt
    exact hW.2 cw hcw hlt

/-- C5, counterexample to the unrestricted claim: with `maxWords = 0` the
scanning loop emits every single word as its own chunk, so a chunk other
than the last has word count `1 > maxWords`. -/
theorem split_text_smart_size_bound_cex :
    ¬ (∀ chunk ∈ (split_text_smart "a b".toList 0 0).dropLast, wordCount chunk ≤ 0) := by
  decide

theorem chunkWordsW_abs_bound (mw nw : ℕ) (hmw : 1 ≤ mw) (hnw : 1 ≤ nw)
    (ws : List (List Char)) :
    ∀ c ∈ chunkWordsW mw nw ws, c.length ≤ mw + nw - 1 := by
  have hb := chunkLoopW_bound mw hmw ws [] (by simpa using hmw)
  rw [chunkWordsW_def]
  by_cases h1 : (chunkLoopW mw [] ws).2.isEmpty
  · rw [if_pos h1]
    intro c hc
    have := hb.1 c hc
    omega
  · rw [if_neg h1]
    by_cases h2 : (chunkLoopW mw [] ws).2.length < nw ∧ (chunkLoopW mw [] ws).1 ≠ []
    · rw [if_pos h2, appendToLastW_eq _ _ h2.2]
      intro c hc
      rcases List.mem_append.mp hc with h | h
      · have := hb.1 c ((List.dropLast_sublist _).subset h)
        omega
      · simp only [List.mem_singleton] at h
        subst h
        have hlast := hb.1 _ (List.getLast_mem h2.2)
        simp only [List.length_append]
        omega
    · rw [if_neg h2]
      intro c hc
      rcases List.mem_append.mp hc with h | h
      · have := hb.1 c h
        omega
      · simp only [List.mem_singleton] at h
        subst h
        omega

/-- C10: with `maxWords ≥ 1` and `minWords ≥ 1`, every chunk returned by
`split_text_smart` has word count at most `maxWords + minWords − 1`: the
merge-back overage beyond `maxWords` is always strictly below `minWords`. -/
theorem split_text_smart_chunk_bound (text : List Char) (mw nw : ℕ)
    (hmw : 1 ≤ mw) (hnw : 1 ≤ nw) :
    ∀ chunk ∈ split_text_smart text mw nw, wordCount chunk ≤ mw + nw - 1 := by
  rw [split_text_smart_eq_chunkWordsW]
  intro chunk hc
  rcases List.mem_map.mp hc with ⟨cw, hcw, rfl⟩
  rw [wordCount_joinSpace_chunk goodWord_pySplit
    (chunkWordsW_mem mw nw (pySplit text) cw hcw)]
  exact chunkWordsW_abs_bound mw nw hmw hnw (pySplit text) cw hcw

/-- One step of the §4.6 reference scan: append the word to the current unit;
once the unit has reached `maxWords` words, emit it (joined with spaces) as a
completed chunk and start a new empty unit. -/
def chunkSpecStep (maxWords : ℕ) (st : List (List Char) × List (List Char)) (w : List Char) :
    List (List Char) × List (List Char) :=
  let unit := st.2 ++ [w]
  if unit.length ≥ maxWords then (st.1 ++ [joinSpace unit], []) else (st.1, unit)

/-- The reference chunking algorithm in the words of §4.6 of the spec: scan
the whitespace-separated words left to right accumulating a current unit,
emitting whenever it reaches `maxWords`; after the scan a remaining partial
unit is appended onto the last emitted chunk exactly when its word count is
strictly below `minWords` and at least one chunk was already emitted, and
otherwise emitted as its own chunk. -/
def chunkSpec (text : List Char) (maxWords minWords : ℕ) : List (List Char) :=
  let st := (pySplit text).foldl (chunkSpecStep maxWords) ([], [])
  if st.2 = [] then st.1
  else if h : st.2.length < minWords ∧ st.1 ≠ [] then
    st.1.dropLast ++ [st.1.getLast h.2 ++ ' ' :: joinSpace st.2]
  else st.1 ++ [joinSpace st.2]

theorem foldl_chunkSpecStep (mw : ℕ) :
    ∀ (ws cs current : List (List Char)),
      ws.foldl (chunkSpecStep mw) (cs, current) =
        (cs ++ (sts_loop mw current ws).1, (sts_loop mw current ws).2) := by
  intro ws
  induction ws with
  | nil => intro cs current; simp [sts_loop]
  | cons w ws ih =>
    intro cs current
    simp only [List.foldl_cons]
    by_cases h : mw ≤ current.length + 1
    · rw [show chunkSpecStep mw (cs, current) w = (cs ++ [joinSpace (current ++ [w])], []) by
        simp [chunkSpecStep, h]]
      rw [ih]
      rw [show sts_loop mw current (w :: ws) =
          (joinSpace (current ++ [w]) :: (sts_loop mw [] ws).1, (sts_loop mw [] ws).2) by
        simp [sts_loop, h]]
      simp
    · rw [show chunkSpecStep mw (cs, current) w = (cs, current ++ [w]) by
        simp [chunkSpecStep, h]]
      rw [ih]
      rw [show sts_loop mw current (w :: ws) = sts_loop mw (current ++ [w]) ws by
        simp [sts_loop, h]]

theorem appendToLast_if_bridge (nw : ℕ) (cs cur : List (List Char)) :
    (if cur.isEmpty then cs
     else if cur.length < nw ∧ cs ≠ [] then appendToLast (joinSpace cur) cs
     else cs ++ [joinSpace cur]) =
    (if cur = [] then cs
     else if h : cur.length < nw ∧ cs ≠ [] then
       cs.dropLast ++ [cs.getLast h.2 ++ ' ' :: joinSpace cur]
     else cs ++ [joinSpace cur]) := by
  by_cases h1 : cur = []
  · simp [h1]
  · rw [if_neg (by simpa [List.isEmpty_iff] using h1), if_neg h1]
    by_cases h2 : cur.length < nw ∧ cs ≠ []
    · rw [if_pos h2, dif_pos h2]
      exact appendToLast_eq cs (joinSpace cur) h2.2
    · rw [if_neg h2, dif_neg h2]

theorem split_text_smart_eq_chunkSpec (text : List Char) (mw nw : ℕ) :
    split_text_smart text mw nw = chunkSpec text mw nw := by
  have hfold := foldl_chunkSpecStep mw (pySplit text) [] []
  simp only [List.nil_append, Prod.mk.eta] at hfold
  unfold chunkSpec
  simp only [hfold]
  exact appendToLast_if_bridge nw (sts_loop mw [] (pySplit text)).1
    (sts_loop mw [] (pySplit text)).2

/-- C2: `split_text_smart` coincides with the reference algorithm of §4.6 on
every input and all parameters; in particular, with `maxWords = 5`,
`minWords = 2` a 12-word input yields chunks of word sizes `[5, 5, 2]`, and
with `maxWords = 5`, `minWords = 3` an 11-word input yields `[5, 6]`. -/
theorem split_text_smart_matches_spec (text : List Char) (mw nw : ℕ) :
    split_text_smart text mw nw = chunkSpec text mw nw ∧
    (split_text_smart "w w w w w w w w w w w w".toList 5 2).map wordCount = [5, 5, 2] ∧
    (split_text_smart "w w w w w w w w w w w".toList 5 3).map wordCount = [5, 6] :=
  ⟨split_text_smart_eq_chunkSpec text mw nw, by decide, by decide⟩

/-- Witness for C5 at a concrete input (11 words, `maxWords = 5`,
`minWords = 3`; the last chunk exceeds 5 via merge-back). -/
theorem split_text_smart_size_bound_witness :
    (∀ chunk ∈ (split_text_smart "w w w w w w w w w w w".toList 5 3).dropLast,
      wordCount chunk ≤ 5) ∧
    (∀ chunk, (split_text_smart "w w w w w w w w w w w".toList 5 3).getLast? = some chunk →
      5 < wordCount chunk →
      0 < (chunkLoopW 5 [] (pySplit "w w w w w w w w w w w".toList)).2.length ∧
      (chunkLoopW 5 [] (pySplit "w w w w w w w w w w w".toList)).2.length < 3 ∧
      (chunkLoopW 5 [] (pySplit "w w w w w w w w w w w".toList)).1 ≠ []) :=
  split_text_smart_size_bound "w w w w w w w w w w w".toList 5 3 (by decide)

/-- Witness for C10 at the same concrete input: the merged last chunk of the
11-word text stays within the bound. -/
theorem split_text_smart_chunk_bound_witness :
    wordCount ((split_text_smart "w w w w w w w w w w w".toList 5 3).getD 1 []) ≤ 5 + 3 - 1 :=
  split_text_smart_chunk_bound "w w w w w w w w w w w".toList 5 3 (by decide) (by decide)
    ((split_text_smart "w w w w w w w w w w w".toList 5 3).getD 1 []) (by decide)

/-- Python string comparison `s <= t`: lexicographic at the first differing
character, shorter run is smaller. -/
def strLeB : List Char → List Char → Bool
  | [], _ => true
  | _ :: _, [] => false
  | a :: as, b :: bs => if a < b then true else if b < a then false else strLeB as bs

/-- Python tuple comparison `(i, s) <= (j, t)` as used by `results.sort()` on
`(index, text)` pairs: by index first, then by text. -/
def pairLeB (x y : ℕ × List Char) : Bool :=
  if x.1 < y.1 then true else if y.1 < x.1 then false else strLeB x.2 y.2

/-- The order relation carried by `pairLeB`. -/
def PairLe (x y : ℕ × List Char) : Prop := pairLeB x y = true

instance : DecidableRel PairLe := fun x y => inferInstanceAs (Decidable (_ = true))

theorem strLeB_cons_lt {a b : Char} (h : a < b) (as bs : List Char) :
    strLeB (a :: as) (b :: bs) = true := by
  simp [strLeB, h]

theorem strLeB_cons_gt {a b : Char} (h : b < a) {as bs : List Char} :
    strLeB (a :: as) (b :: bs) = false := by
  simp [strLeB, h, lt_asymm h]

theorem strLeB_cons_eq {a : Char} {as bs : List Char} :
    strLeB (a :: as) (a :: bs) = strLeB as bs := by
  simp [strLeB, lt_irrefl]

theorem pairLeB_lt {x y : ℕ × List Char} (h : x.1 < y.1) : pairLeB x y = true := by
  unfold pairLeB
  rw [if_pos h]

theorem pairLeB_gt {x y : ℕ × List Char} (h : y.1 < x.1) : pairLeB x y = false := by
  unfold pairLeB
  rw [if_neg (lt_asymm h), if_pos h]

theorem pairLeB_eqFst {x y : ℕ × List Char} (h : x.1 = y.1) :
    pairLeB x y = strLeB x.2 y.2 := by
  unfold pairLeB
  rw [if_neg (h ▸ lt_irrefl _), if_neg (h ▸ lt_irrefl _)]

theorem strLeB_total : ∀ (s t : List Char), strLeB s t = true ∨ strLeB t s = true := by
  intro s
  induction s with
  | nil => intro t; exact Or.inl rfl
  | cons a as ih =>
    intro t
    cases t with
    | nil => exact Or.inr rfl
    | cons b bs =>
      rcases lt_trichotomy a b with h | h | h
      · exact Or.inl (by simp [strLeB, h])
      · subst h
        rcases ih bs with h2 | h2
        · exact Or.inl (by simp [strLeB, h2])
        · exact Or.inr (by simp [strLeB, h2])
      · exact Or.inr (by simp [strLeB, h])

theorem strLeB_antisymm : ∀ {s t : List Char}, strLeB s t = true → strLeB t s = true → s = t := by
  intro s
  induction s with
  | nil =>
    intro t _ h2
    cases t with
    | nil => rfl
    | cons b bs => simp [strLeB] at h2
  | cons a as ih =>
    intro t h1 h2
    cases t with
    | nil => simp [strLeB] at h1
    | cons b bs =>
      rcases lt_trichotomy a b with h | h | h
      · simp [strLeB, h, lt_asymm h] at h2
      · subst h
        simp [strLeB, lt_irrefl] at h1 h2
        rw [ih h1 h2]
      · simp [strLeB, h, lt_asymm h] at h1

theorem strLeB_trans : ∀ {s t u : List Char},
    strLeB s t = true → strLeB t u = true → strLeB s u = true := by
  intro s
  induction s with
  | nil => intro t u _ _; rfl
  | cons a as ih =>
    intro t u h1 h2
    cases t with
    | nil => simp [strLeB] at h1
    | cons b bs =>
      cases u with
      | nil => simp [strLeB] at h2
      | cons c cs =>
        rcases lt_trichotomy a b with hab | hab | hab
        · rcases lt_trichotomy b c with hbc | hbc | hbc
          · exact strLeB_cons_lt (lt_trans hab hbc) as cs
          · exact hbc ▸ strLeB_cons_lt hab as cs
          · rw [strLeB_cons_gt hbc] at h2; simp at h2
        · subst hab
          rcases lt_trichotomy a c with hbc | hbc | hbc
          · exact strLeB_cons_lt hbc as cs
          · subst hbc
            rw [strLeB_cons_eq] at h1 h2 ⊢
            exact ih h1 h2
          · rw [strLeB_cons_gt hbc] at h2; simp at h2
        · rw [strLeB_cons_gt hab] at h1; simp at h1

theorem pairLe_total : ∀ (x y : ℕ × List Char), PairLe x y ∨ PairLe y x := by
  intro x y
  unfold PairLe pairLeB
  rcases lt_trichotomy x.1 y.1 with h | h | h
  · exact Or.inl (by simp [h])
  · rcases strLeB_total x.2 y.2 with h2 | h2
    · exact Or.inl (by simp [h, h2])
    · exact Or.inr (by simp [h, h2])
  · exact Or.inr (by simp [h])

theorem pairLe_trans : ∀ {x y z : ℕ × List Char}, PairLe x y → PairLe y z → PairLe x z := by
  intro x y z h1 h2
  unfold PairLe at h1 h2 ⊢
  rcases lt_trichotomy x.1 y.1 with hab | hab | hab
  · rcases lt_trichotomy y.1 z.1 with hbc | hbc | hbc
    · exact pairLeB_lt (lt_trans hab hbc)
    · exact pairLeB_lt (hbc ▸ hab)
    · rw [pairLeB_gt hbc] at h2; simp at h2
  · rcases lt_trichotomy y.1 z.1 with hbc | hbc | hbc
    · exact pairLeB_lt (hab ▸ hbc)
    · rw [pairLeB_eqFst (hab.trans hbc)]
      rw [pairLeB_eqFst hab] at h1
      rw [pairLeB_eqFst hbc] at h2
      exact strLeB_trans h1 h2
    · rw [pairLeB_gt hbc] at h2; simp at h2
  · rw [pairLeB_gt hab] at h1; simp at h1

theorem pairLe_antisymm : ∀ {x y : ℕ × List Char}, PairLe x y → PairLe y x → x = y := by
  intro x y h1 h2
  unfold PairLe pairLeB at h1 h2
  rcases lt_trichotomy x.1 y.1 with h | h | h
  · simp [h, lt_asymm h] at h2
  · simp [h, lt_irrefl] at h1 h2
    exact Prod.ext h (strLeB_antisymm h1 h2)
  · simp [h, lt_asymm h] at h1

instance : IsTotal (ℕ × List Char) PairLe := ⟨pairLe_total⟩

instance : IsTrans (ℕ × List Char) PairLe := ⟨fun _ _ _ => pairLe_trans⟩

instance : IsAntisymm (ℕ × List Char) PairLe := ⟨fun _ _ => pairLe_antisymm⟩

/-- `results.sort()` (`summarizer_pipeline.py` line 189, `summarizers.py`
line 195): Python's stable comparison sort on the total order `PairLe`;
since pairs comparing equal under `PairLe` are identical, every comparison
sort produces this list. -/
def pySortPairs (l : List (ℕ × List Char)) : List (ℕ × List Char) :=
  List.insertionSort PairLe l

/-- `"\n\n".join(text for _, text in results)` after `results.sort()`
(`summarizer_pipeline.py` lines 188–190): sort the `(index, text)` pairs and
join the texts with a blank-line separator. -/
def reassemble (results : List (ℕ × List Char)) : List Char :=
  joinSep ['\n', '\n'] ((pySortPairs results).map Prod.snd)

theorem pySortPairs_eq_of_perm {l₁ l₂ : List (ℕ × List Char)} (h : l₁.Perm l₂) :
    pySortPairs l₁ = pySortPairs l₂ :=
  List.eq_of_perm_of_sorted
    ((List.perm_insertionSort PairLe l₁).trans (h.trans (List.perm_insertionSort PairLe l₂).symm))
    (List.sorted_insertionSort PairLe l₁)
    (List.sorted_insertionSort PairLe l₂)

theorem pairLe_fst_le {x y : ℕ × List Char} (h : PairLe x y) : x.1 ≤ y.1 := by
  unfold PairLe pairLeB at h
  rcases lt_trichotomy x.1 y.1 with h1 | h1 | h1
  · exact le_of_lt h1
  · exact le_of_eq h1
  · simp [h1, lt_asymm h1] at h

/-- C1: reassembly is deterministic: two arrival (append) orders of the same
completed `(index, text)` pairs with pairwise-distinct indices produce the
same combined text, and the sorted sections are in ascending index order. -/
theorem reassemble_deterministic (l₁ l₂ : List (ℕ × List Char))
    (hperm : l₁.Perm l₂) (hnodup : (l₁.map Prod.fst).Nodup) :
    reassemble l₁ = reassemble l₂ ∧
    List.Pairwise (· ≤ ·) ((pySortPairs l₁).map Prod.fst) := by
  constructor
  · unfold reassemble
    rw [pySortPairs_eq_of_perm hperm]
  · exact List.Pairwise.map Prod.fst (fun a b h => pairLe_fst_le h)
      (List.sorted_insertionSort PairLe l₁)

/-- Witness for C1: chunks 1..3 completing in reverse order reassemble to the
same text as in dispatch order, with sections ascending. -/
theorem reassemble_deterministic_witness :
    reassemble [(1, "alpha".toList), (2, "beta".toList), (3, "gamma".toList)] =
      reassemble [(3, "gamma".toList), (2, "beta".toList), (1, "alpha".toList)] ∧
    List.Pairwise (· ≤ ·)
      ((pySortPairs [(1, "alpha".toList), (2, "beta".toList), (3, "gamma".toList)]).map
        Prod.fst) :=
  reassemble_deterministic _ _ (List.isPerm_iff.mp (by decide)) (by decide)

/-- Python `str.replace(old, new)` for a nonempty pattern `old`: replace the
leftmost occurrences scanning left to right without overlap.  `fuel` bounds
the recursion; any value at least the length of the string gives the exact
semantics, and `pyReplace` supplies the string's length.  (A degenerate empty
pattern is returned unchanged; the pipeline only ever replaces the nonempty
placeholder `"{text}"`.) -/
def pyReplaceFuel (old new : List Char) : ℕ → List Char → List Char
  | 0, s => s
  | _ + 1, [] => []
  | fuel + 1, c :: cs =>
    if old ≠ [] ∧ old.isPrefixOf (c :: cs) then
      new ++ pyReplaceFuel old new fuel ((c :: cs).drop old.length)
    else c :: pyReplaceFuel old new fuel cs

/-- `prompt_template.replace("{text}", chunk)` (`summarizer_pipeline.py`
line 140). -/
def pyReplace (s old new : List Char) : List Char :=
  pyReplaceFuel old new s.length s

/-- The fixed sentinel returned when the inference request fails
(`summarizer_pipeline.py` line 136). -/
def modelQueryFailed : List Char := "Model query failed.".toList

/-- `query_llama3` (`summarizer_pipeline.py` lines 126–136): the HTTP
round-trip is an oracle `net` from the prompt to `some` response text or
`none` for any raised transport/parsing error; every exception is caught and
converted to the fixed sentinel, never re-raised. -/
def query_llama3 (net : List Char → Option (List Char)) (prompt : List Char) : List Char :=
  match net prompt with
  | some response => response
  | none => modelQueryFailed

/-- `summarize_chunk_with_id` (`summarizer_pipeline.py` lines 139–141):
bind the chunk into the prompt template and pair the call's result with the
chunk index. -/
def summarize_chunk_with_id (net : List Char → Option (List Char)) (index : ℕ)
    (chunk prompt_template : List Char) : ℕ × List Char :=
  (index, query_llama3 net (pyReplace prompt_template "{text}".toList chunk))

/-- The map stage of `summarize_pdf_report` (lines 172–186): one call per
chunk, indexed from 1; `order` is the completion order of the futures (a
permutation of the dispatched indices 1..N); each completed `(index, text)`
pair is appended to `results`.  `query_llama3` converts every exception into
the sentinel text, so `future.result()` never raises and the `except` branch
of line 185 never runs: every completion appends its pair. -/
def mapStage (net : List Char → Option (List Char)) (chunks : List (List Char))
    (prompt_template : List Char) (order : List ℕ) : List (ℕ × List Char) :=
  order.map (fun i => summarize_chunk_with_id net i (chunks.getD (i - 1) []) prompt_template)

/-- C3 (amended): when the inference call for a chunk fails, the map stage
still produces one summary pair per chunk; the failing chunk's entry is
`(index, "Model query failed.")` — the fixed sentinel paired with the chunk
index — and every chunk whose call succeeds keeps its own response. -/
theorem mapStage_error_isolation (net : List Char → Option (List Char))
    (chunks : List (List Char)) (tmpl : List Char) (order : List ℕ)
    (horder : order.Perm (List.range' 1 chunks.length)) :
    (mapStage net chunks tmpl order).length = chunks.length ∧
    (∀ k, k ∈ order →
      net (pyReplace tmpl "{text}".toList (chunks.getD (k - 1) [])) = none →
      (k, modelQueryFailed) ∈ mapStage net chunks tmpl order) ∧
    (∀ k resp, k ∈ order →
      net (pyReplace tmpl "{text}".toList (chunks.getD (k - 1) [])) = some resp →
      (k, resp) ∈ mapStage net chunks tmpl order) := by
  refine ⟨?_, ?_, ?_⟩
  · rw [mapStage, List.length_map, horder.length_eq, List.length_range']
  · intro k hk hfail
    refine List.mem_map.mpr ⟨k, hk, ?_⟩
    unfold summarize_chunk_with_id query_llama3
    rw [hfail]
  · intro k resp hk hresp
    refine List.mem_map.mpr ⟨k, hk, ?_⟩
    unfold summarize_chunk_with_id query_llama3
    rw [hresp]

/-- The network oracle of the C3 concrete run: the call whose prompt binds
chunk 2's text fails; every other call answers `"ok"`. -/
def cexNet (prompt : List Char) : Option (List Char) :=
  if prompt = "beta".toList then none else some "ok".toList

/-- C3 counterexample to the claim as stated: in a concrete two-chunk run
where chunk 2's inference call fails, chunk 2's summary is the fixed
sentinel `"Model query failed."`, a string that does not contain the digit
`'2'` — it does not carry the chunk's index. -/
theorem mapStage_error_string_cex :
    mapStage cexNet ["alpha".toList, "beta".toList] "{text}".toList [1, 2] =
      [(1, "ok".toList), (2, modelQueryFailed)] ∧
    '2' ∉ modelQueryFailed := by
  decide

/-- Witness for C3 at a concrete run: two chunks completing in reverse
order, chunk 2's call failing. -/
theorem mapStage_error_isolation_witness :
    (mapStage cexNet ["alpha".toList, "beta".toList] "{text}".toList [2, 1]).length = 2 ∧
    (∀ k, k ∈ [2, 1] →
      cexNet (pyReplace "{text}".toList "{text}".toList
        (["alpha".toList, "beta".toList].getD (k - 1) [])) = none →
      (k, modelQueryFailed) ∈ mapStage cexNet ["alpha".toList, "beta".toList] "{text}".toList [2, 1]) ∧
    (∀ k resp, k ∈ [2, 1] →
      cexNet (pyReplace "{text}".toList "{text}".toList
        (["alpha".toList, "beta".toList].getD (k - 1) [])) = some resp →
      (k, resp) ∈ mapStage cexNet ["alpha".toList, "beta".toList] "{text}".toList [2, 1]) :=
  mapStage_error_isolation cexNet ["alpha".toList, "beta".toList] "{text}".toList [2, 1]
    (List.isPerm_iff.mp (by decide))

/-- The completion loop of `summarizers.main` (`summarizers.py` lines
181–192): before handling each completed future, the stop flag
(`st.session_state.stop_process`) is polled, and if it is set the function
returns immediately; otherwise the completion is appended to the results.
`cancel i` is the flag value observed at the i-th poll; `none` means the
loop aborted. -/
def main_map_loop (cancel : ℕ → Bool) : ℕ → List (ℕ × List Char) → Option (List (ℕ × List Char))
  | _, [] => some []
  | i, c :: cs =>
    if cancel i then none
    else (main_map_loop cancel (i + 1) cs).map (c :: ·)

/-- The tail of `summarizers.main` after dispatching the futures
(`summarizers.py` lines 181–209): run the completion loop; on stop, return
with no reassembly and no final call.  Otherwise sort-and-join the results,
poll the stop flag once more (line 199), and only then build the final
prompt (with the optional page-limit suffix of line 207) and issue the one
reduction call.  Returns the final summary (`none` when stopped) and whether
the reduction call was issued. -/
def main_after_dispatch (cancel : ℕ → Bool) (completions : List (ℕ × List Char))
    (net : List Char → Option (List Char)) (final_prompt_template page_suffix : List Char) :
    Option (List Char) × Bool :=
  match main_map_loop cancel 0 completions with
  | none => (none, false)
  | some results =>
    let combined_summary := reassemble results
    if cancel completions.length then (none, false)
    else
      let final_prompt :=
        pyReplace final_prompt_template "{text}".toList combined_summary ++ page_suffix
      (some (summarize_chunk_with_id net 0 combined_summary final_prompt).2, true)

/-- C9: if the cancellation flag is observed set at one of the
between-completion polls of the map stage, the completion loop aborts (the
pipeline stops waiting for further completions), the reduction call is never
issued, and no final summary is produced. -/
theorem main_cancelled_no_final (cancel : ℕ → Bool) (completions : List (ℕ × List Char))
    (net : List Char → Option (List Char)) (tmpl suffix : List Char)
    (h : ∃ i, i < completions.length ∧ cancel i = true) :
    main_map_loop cancel 0 completions = none ∧
    main_after_dispatch cancel completions net tmpl suffix = (none, false) := by
  have key : ∀ (cs : List (ℕ × List Char)) (s : ℕ),
      (∃ i, i < cs.length ∧ cancel (s + i) = true) → main_map_loop cancel s cs = none := by
    intro cs
    induction cs with
    | nil =>
      intro s hex
      obtain ⟨i, hi, _⟩ := hex
      simp at hi
    | cons c cs ih =>
      intro s hex
      obtain ⟨i, hi, hc⟩ := hex
      by_cases h0 : cancel s
      · simp [main_map_loop, h0]
      · cases i with
        | zero =>
          rw [Nat.add_zero] at hc
          exact absurd hc (by simpa using h0)
        | succ j =>
          have hrec : main_map_loop cancel (s + 1) cs = none := by
            refine ih (s + 1) ⟨j, by simpa using hi, ?_⟩
            rw [show s + 1 + j = s + (j + 1) from by omega]
            exact hc
          show main_map_loop cancel s (c :: cs) = none
          rw [main_map_loop, if_neg (by simpa using h0), hrec]
          rfl
  have h0 := key completions 0 (by simpa using h)
  refine ⟨h0, ?_⟩
  unfold main_after_dispatch
  rw [h0]

/-- The stop flag of the C9 concrete run: observed set from the second poll
onwards. -/
def cancelFromSecondPoll (i : ℕ) : Bool := i != 0

/-- Witness for C9 at a concrete run of three completions with the flag set
at the second between-completion poll. -/
theorem main_cancelled_no_final_witness :
    main_map_loop cancelFromSecondPoll 0 [(1, "a".toList), (2, "b".toList), (3, "c".toList)] =
      none ∧
    main_after_dispatch cancelFromSecondPoll [(1, "a".toList), (2, "b".toList), (3, "c".toList)]
      (fun _ => none) "{text}".toList [] = (none, false) :=
  main_cancelled_no_final cancelFromSecondPoll [(1, "a".toList), (2, "b".toList), (3, "c".toList)]
    (fun _ => none) "{text}".toList [] ⟨1, by decide, by decide⟩

/-- The cache-relevant file-system state for one document basename: the
contents of the sibling `<name>.ocr.txt` and `<name>.hash` cache files,
`none` when the file does not exist. -/
structure CacheState where
  ocrCacheFile : Option (List Char)
  hashFile : Option (List Char)
deriving DecidableEq

/-- `load_or_generate_ocr` (`summarizer_pipeline.py` lines 67–88) with the
file system explicit: `current_hash` is the digest `get_file_hash` computes
for the document's bytes, `ocr_result` the text `extract_text_from_images`
would produce.  If both cache files exist, the saved hash is read and
trimmed (line 76) and compared with the current hash, and the cached text
must be non-blank; on a hit the cached text is returned unchanged.  In every
other case the OCR text is computed, both files are rewritten, and the
computed text is returned.  The result is (returned text, state after the
call, whether OCR ran). -/
def load_or_generate_ocr (st : CacheState) (current_hash ocr_result : List Char) :
    List Char × CacheState × Bool :=
  match st.ocrCacheFile, st.hashFile with
  | some cached_text, some hash_raw =>
    if pyStrip hash_raw = current_hash ∧ pyStrip cached_text ≠ [] then
      (cached_text, st, false)
    else
      (ocr_result, ⟨some ocr_result, some current_hash⟩, true)
  | _, _ => (ocr_result, ⟨some ocr_result, some current_hash⟩, true)

/-- C4: `load_or_generate_ocr` returns the cached text without invoking OCR
exactly when both cache files exist, the stored hash (as read back, i.e.
trimmed) equals the current file hash, and the cached text is non-empty
after trimming; in every other case (missing file, hash mismatch, blank
text) OCR is invoked, both files are overwritten with the computed text and
the current hash, and the computed text is returned — never an error. -/
theorem load_or_generate_ocr_cache (st : CacheState) (h o : List Char) :
    ((load_or_generate_ocr st h o).2.2 = false ↔
      (∃ cached hraw, st.ocrCacheFile = some cached ∧ st.hashFile = some hraw ∧
        pyStrip hraw = h ∧ pyStrip cached ≠ [])) ∧
    ((load_or_generate_ocr st h o).2.2 = false →
      (load_or_generate_ocr st h o).2.1 = st ∧
      ∃ cached, st.ocrCacheFile = some cached ∧ (load_or_generate_ocr st h o).1 = cached) ∧
    ((load_or_generate_ocr st h o).2.2 = true →
      (load_or_generate_ocr st h o).1 = o ∧
      (load_or_generate_ocr st h o).2.1 = ⟨some o, some h⟩) := by
  obtain ⟨oc, hf⟩ := st
  cases oc with
  | none => simp [load_or_generate_ocr]
  | some cached =>
    cases hf with
    | none => simp [load_or_generate_ocr]
    | some hraw =>
      by_cases hcond : pyStrip hraw = h ∧ pyStrip cached ≠ []
      · simp [load_or_generate_ocr, hcond]
      · simp only [load_or_generate_ocr, if_neg hcond]
        refine ⟨⟨fun hff => absurd hff (by simp), fun hex => ?_⟩, by simp, by simp⟩
        obtain ⟨c2, h2, hc2, hh2, he1, he2⟩ := hex
        injection hc2 with hc2
        injection hh2 with hh2
        subst hc2
        subst hh2
        exact absurd ⟨he1, he2⟩ hcond

/-- Witness for C4 at a concrete hit state: both files present, hash
matching, cached text non-blank. -/
theorem load_or_generate_ocr_cache_witness :
    ((load_or_generate_ocr ⟨some "cached text".toList, some "abc123".toList⟩ "abc123".toList
        "new ocr".toList).2.2 = false ↔
      (∃ cached hraw,
        (CacheState.mk (some "cached text".toList) (some "abc123".toList)).ocrCacheFile =
          some cached ∧
        (CacheState.mk (some "cached text".toList) (some "abc123".toList)).hashFile =
          some hraw ∧
        pyStrip hraw = "abc123".toList ∧ pyStrip cached ≠ [])) ∧
    ((load_or_generate_ocr ⟨some "cached text".toList, some "abc123".toList⟩ "abc123".toList
        "new ocr".toList).2.2 = false →
      (load_or_generate_ocr ⟨some "cached text".toList, some "abc123".toList⟩ "abc123".toList
        "new ocr".toList).2.1 = ⟨some "cached text".toList, some "abc123".toList⟩ ∧
      ∃ cached,
        (CacheState.mk (some "cached text".toList) (some "abc123".toList)).ocrCacheFile =
          some cached ∧
        (load_or_generate_ocr ⟨some "cached text".toList, some "abc123".toList⟩ "abc123".toList
          "new ocr".toList).1 = cached) ∧
    ((load_or_generate_ocr ⟨some "cached text".toList, some "abc123".toList⟩ "abc123".toList
        "new ocr".toList).2.2 = true →
      (load_or_generate_ocr ⟨some "cached text".toList, some "abc123".toList⟩ "abc123".toList
        "new ocr".toList).1 = "new ocr".toList ∧
      (load_or_generate_ocr ⟨some "cached text".toList, some "abc123".toList⟩ "abc123".toList
        "new ocr".toList).2.1 = ⟨some "new ocr".toList, some "abc123".toList⟩) :=
  load_or_generate_ocr_cache ⟨some "cached text".toList, some "abc123".toList⟩ "abc123".toList
    "new ocr".toList
